import Mathlib

/-!
Verification development for the imagefix ID-photo tool
(`src/src/app/page.tsx`).

The embedding models the algorithmic core of the page in exact rational
arithmetic:

* the fixed-iteration binary searches of `encodeJpegUnder2MB` (quality
  search, 8 iterations over `[0.5, 0.95]`) and `findBestSizeAndEncode`
  (resolution-scale search, 8 iterations over `[0.2, 1.0]`, with a
  small-size fallback);
* the crop geometry of `autoAlign` and `nudgeFaceY`;
* the sequence-number supersession of the preview estimator
  (`estimateSeq` / the debounced effect).

The opaque browser pieces (canvas rendering and JPEG encoding) enter only
through their observable byte size, so an encoder is modelled as a total
function from quality (and canvas dimensions) to the encoded byte size.
JavaScript numbers are modelled as exact rationals; `Math.floor` is
`Int.floor` and `Math.round` is `jsRound x = ⌊x + 1/2⌋` (JS rounds ties
toward positive infinity).
-/

namespace ImageFix

/-- Byte budget: `const MAX_BYTES = 2 * 1024 * 1024` (page.tsx line 11). -/
def MAX_BYTES : ℕ := 2 * 1024 * 1024

/-- Aspect numerator: `const ASPECT_W = 3` (page.tsx line 8). -/
def ASPECT_W : ℚ := 3

/-- Aspect denominator: `const ASPECT_H = 4` (page.tsx line 9). -/
def ASPECT_H : ℚ := 4

/-- Target aspect ratio `TARGET_AR = ASPECT_W / ASPECT_H` (page.tsx line 10). -/
def TARGET_AR : ℚ := ASPECT_W / ASPECT_H

/-- Desired face-height fraction `DESIRED_FACE_FRAC = 0.48` (page.tsx line 22). -/
def DESIRED_FACE_FRAC : ℚ := 48 / 100

/-- Default face vertical fraction `DEFAULT_FACE_Y_FRACTION = 0.38` (page.tsx line 21). -/
def DEFAULT_FACE_Y_FRACTION : ℚ := 38 / 100

/-- JavaScript `Math.round` on exact rationals: `⌊x + 1/2⌋` (ties toward +∞). -/
def jsRound (x : ℚ) : ℤ := ⌊x + 1 / 2⌋

/-- Result of the inner quality search: the blob (represented by its byte
size) and the quality it was encoded at. -/
structure EncResult where
  size : ℕ
  q : ℚ
deriving DecidableEq

/-- Result of the outer resolution search: blob byte size, quality, and the
output pixel dimensions. -/
structure SizeResult where
  size : ℕ
  q : ℚ
  w : ℤ
  h : ℤ
deriving DecidableEq

/-- Generic fixed-iteration bisection loop shared by the quality search of
`encodeJpegUnder2MB` (page.tsx lines 223-227) and the scale search of
`findBestSizeAndEncode` (page.tsx lines 246-265).  At each step the
midpoint `m = (lo + hi) / 2` is probed; if it fits, `mk m` becomes the
current best and the lower bound is raised to `m`, otherwise the upper
bound is lowered to `m`. -/
def searchLoop (fit : ℚ → Prop) [DecidablePred fit] {α : Type} (mk : ℚ → α) :
    ℕ → ℚ → ℚ → Option α → Option α
  | 0, _, _, best => best
  | n + 1, lo, hi, best =>
    if fit ((lo + hi) / 2) then
      searchLoop fit mk n ((lo + hi) / 2) hi (some (mk ((lo + hi) / 2)))
    else
      searchLoop fit mk n lo ((lo + hi) / 2) best

/-- The list of midpoints actually probed by `searchLoop` (in probing
order); the interval evolution mirrors `searchLoop` exactly. -/
def searchSamples (fit : ℚ → Prop) [DecidablePred fit] : ℕ → ℚ → ℚ → List ℚ
  | 0, _, _ => []
  | n + 1, lo, hi =>
    (lo + hi) / 2 ::
      (if fit ((lo + hi) / 2) then searchSamples fit n ((lo + hi) / 2) hi
       else searchSamples fit n lo ((lo + hi) / 2))

/-- Feasibility test of one quality probe inside `encodeJpegUnder2MB`:
`blob.size <= MAX_BYTES` (page.tsx line 226), for an abstract total
encoder `enc` mapping a quality to the resulting blob size. -/
def innerFit (enc : ℚ → ℕ) (q : ℚ) : Prop := enc q ≤ MAX_BYTES

instance (enc : ℚ → ℕ) : DecidablePred (innerFit enc) := fun q =>
  inferInstanceAs (Decidable (enc q ≤ MAX_BYTES))

/-- Value recorded when a quality probe fits: `best = { blob, q }`
(page.tsx line 226). -/
def innerMk (enc : ℚ → ℕ) (q : ℚ) : EncResult := ⟨enc q, q⟩

/-- Model of `encodeJpegUnder2MB` (page.tsx lines 220-233): 8-iteration
bisection over quality in `[0.5, 0.95]`; if no probe ever fit the budget,
fall back to a single encode at quality 0.5, returned regardless of size.
The canvas is fixed, so the encoder is abstracted as `enc : quality →
byte size`. -/
def encodeJpegUnder2MB (enc : ℚ → ℕ) : EncResult :=
  match searchLoop (innerFit enc) (innerMk enc) 8 (1 / 2) (19 / 20) none with
  | some best => best
  | none => ⟨enc (1 / 2), 1 / 2⟩

/-- The 8 quality midpoints probed by `encodeJpegUnder2MB`. -/
def encodeQualitySamples (enc : ℚ → ℕ) : List ℚ :=
  searchSamples (innerFit enc) 8 (1 / 2) (19 / 20)

/-- One output dimension of a probe of the outer search:
`Math.max(1, Math.floor(maxDim * s))` (page.tsx lines 248-249). -/
def scaleDim (d : ℤ) (s : ℚ) : ℤ := max 1 ⌊(d : ℚ) * s⌋

/-- Feasibility test of one scale probe inside `findBestSizeAndEncode`
(page.tsx line 259): the inner quality search on the canvas rendered at
the scaled dimensions returns a blob within the budget.  `enc2 w h` is
the abstract encoder for the crop rendered at `w × h`. -/
def outerFit (enc2 : ℤ → ℤ → ℚ → ℕ) (maxW maxH : ℤ) (s : ℚ) : Prop :=
  (encodeJpegUnder2MB (enc2 (scaleDim maxW s) (scaleDim maxH s))).size ≤ MAX_BYTES

instance (enc2 : ℤ → ℤ → ℚ → ℕ) (maxW maxH : ℤ) :
    DecidablePred (outerFit enc2 maxW maxH) := fun s =>
  inferInstanceAs
    (Decidable ((encodeJpegUnder2MB
      (enc2 (scaleDim maxW s) (scaleDim maxH s))).size ≤ MAX_BYTES))

/-- Value recorded when a scale probe fits:
`best = { blob: enc.blob, q: enc.q, w, h }` (page.tsx line 260). -/
def outerMk (enc2 : ℤ → ℤ → ℚ → ℕ) (maxW maxH : ℤ) (s : ℚ) : SizeResult :=
  ⟨(encodeJpegUnder2MB (enc2 (scaleDim maxW s) (scaleDim maxH s))).size,
   (encodeJpegUnder2MB (enc2 (scaleDim maxW s) (scaleDim maxH s))).q,
   scaleDim maxW s, scaleDim maxH s⟩

/-- Model of `findBestSizeAndEncode` (page.tsx lines 236-282):
`maxW = Math.floor(cropPx.width)`, `maxH = Math.floor(cropPx.height)`,
then an 8-iteration bisection over the scale `s ∈ [0.2, 1.0]`; if no
probed scale fit, fall back to `targetW = Math.min(800, maxW)`,
`targetH = Math.round(targetW * (ASPECT_H / ASPECT_W))` and one more
encode at that size (page.tsx lines 268-279). -/
def findBestSizeAndEncode (enc2 : ℤ → ℤ → ℚ → ℕ) (cropW cropH : ℚ) : SizeResult :=
  match searchLoop (outerFit enc2 ⌊cropW⌋ ⌊cropH⌋) (outerMk enc2 ⌊cropW⌋ ⌊cropH⌋)
      8 (1 / 5) 1 none with
  | some best => best
  | none =>
    let targetW : ℤ := min 800 ⌊cropW⌋
    let targetH : ℤ := jsRound ((targetW : ℚ) * (ASPECT_H / ASPECT_W))
    let e := encodeJpegUnder2MB (enc2 targetW targetH)
    ⟨e.size, e.q, targetW, targetH⟩

/-- The 8 scale midpoints probed by `findBestSizeAndEncode`. -/
def scaleSamples (enc2 : ℤ → ℤ → ℚ → ℕ) (cropW cropH : ℚ) : List ℚ :=
  searchSamples (outerFit enc2 ⌊cropW⌋ ⌊cropH⌋) 8 (1 / 5) 1

/-- Face bounding box in source pixel coordinates (the `DetectBox` of
page.tsx line 51). -/
structure FaceBox where
  x : ℚ
  y : ℚ
  width : ℚ
  height : ℚ
deriving DecidableEq

/-- Output of `autoAlign`: the zoom and the crop offset (in percent of the
raster dimensions) passed to `setZoom` / `setCrop` (page.tsx lines 170-171). -/
structure AlignResult where
  zoom : ℚ
  cropX : ℚ
  cropY : ℚ
deriving DecidableEq

/-- The zoom-1 view height `baseH` of `autoAlign` and `nudgeFaceY`
(page.tsx lines 140 and 182):
`(W / TARGET_AR <= H) ? Math.round(W / TARGET_AR) : H`. -/
def baseHOf (W H : ℤ) : ℚ :=
  if (W : ℚ) / TARGET_AR ≤ (H : ℚ) then (jsRound ((W : ℚ) / TARGET_AR) : ℚ)
  else (H : ℚ)

/-- Shared tail of `autoAlign` (page.tsx lines 149-171), parameterized by
the desired view height and the centering point, which the source computes
from the face box when one was detected and from the raster center
otherwise:
`initZoom = clamp(baseH / desiredH, 1, 5)`, `viewH = baseH / initZoom`,
`viewW = viewH * TARGET_AR`, top-left clamped into the raster, offsets in
percent. -/
def alignFrom (W H : ℤ) (desiredH cx cy faceYFrac : ℚ) : AlignResult :=
  let baseH := baseHOf W H
  let initZoom := max 1 (min 5 (baseH / desiredH))
  let viewH := baseH / initZoom
  let viewW := viewH * TARGET_AR
  let left := max 0 (min (cx - viewW / 2) ((W : ℚ) - viewW))
  let top := max 0 (min (cy - faceYFrac * viewH) ((H : ℚ) - viewH))
  ⟨initZoom, -(left / (W : ℚ)) * 100, -(top / (H : ℚ)) * 100⟩

/-- Model of `autoAlign` (page.tsx lines 135-172) for a loaded raster of
`W × H` pixels and an already-resolved face-detection outcome.  With a
face box, `desiredH = clamp(round(faceH / DESIRED_FACE_FRAC), 32, H)` and
the view is centered on the face box center; without one, `desiredH =
baseH` (so `initZoom = 1`) and the view is centered on the raster center
(page.tsx lines 143-155). -/
def autoAlign (W H : ℤ) (face : Option FaceBox) (faceYFrac : ℚ) : AlignResult :=
  match face with
  | some f =>
    alignFrom W H (max 32 (min (H : ℚ) (jsRound (f.height / DESIRED_FACE_FRAC) : ℚ)))
      (f.x + f.width / 2) (f.y + f.height / 2) faceYFrac
  | none => alignFrom W H (baseHOf W H) ((W : ℚ) / 2) ((H : ℚ) / 2) faceYFrac

/-- View-rectangle left edge recovered from a crop offset percentage:
`left = -offsetX / 100 * W` (inverse of page.tsx line 167). -/
def leftFromOffset (W : ℤ) (offX : ℚ) : ℚ := -offX / 100 * (W : ℚ)

/-- View-rectangle top edge recovered from a crop offset percentage:
`top = -offsetY / 100 * H` (inverse of page.tsx line 168). -/
def topFromOffset (H : ℤ) (offY : ℚ) : ℚ := -offY / 100 * (H : ℚ)

/-- View-rectangle left edge of an `autoAlign` result. -/
def viewLeft (W : ℤ) (r : AlignResult) : ℚ := leftFromOffset W r.cropX

/-- View-rectangle top edge of an `autoAlign` result. -/
def viewTop (H : ℤ) (r : AlignResult) : ℚ := topFromOffset H r.cropY

/-- View-rectangle height of an `autoAlign` result: `baseH / zoom`
(page.tsx line 157). -/
def viewHeight (W H : ℤ) (r : AlignResult) : ℚ := baseHOf W H / r.zoom

/-- View-rectangle width of an `autoAlign` result: `viewH * TARGET_AR`
(page.tsx line 158). -/
def viewWidth (W H : ℤ) (r : AlignResult) : ℚ := viewHeight W H r * TARGET_AR

/-- The interactive crop state read and written by `nudgeFaceY`: the
`zoom`, `crop` (offset percentages) and `faceYFrac` React states. -/
structure CropState where
  zoom : ℚ
  cropX : ℚ
  cropY : ℚ
  faceYFrac : ℚ
deriving DecidableEq

/-- Model of `nudgeFaceY` (page.tsx lines 177-194) for a loaded raster of
`W × H` pixels: sets `faceYFrac := v` and recomputes the crop offset,
holding the horizontal position and zoom as computed from the current
state. -/
def nudgeFaceY (W H : ℤ) (st : CropState) (v : ℚ) : CropState :=
  let baseH := baseHOf W H
  let viewH := baseH / st.zoom
  let curLeft := -st.cropX * (1 / 100) * (W : ℚ)
  let curTop := -st.cropY * (1 / 100) * (H : ℚ)
  let cyApprox := curTop + st.faceYFrac * viewH
  let newTop := max 0 (min (cyApprox - v * viewH) ((H : ℚ) - viewH))
  { zoom := st.zoom
    cropX := -(curLeft / (W : ℚ)) * 100
    cropY := -(newTop / (H : ℚ)) * 100
    faceYFrac := v }

/-- Output dimensions applied by a completed preview estimate
(`setOutWidth` / `setOutHeight`, page.tsx lines 322-323). -/
structure EstDim where
  w : ℤ
  h : ℤ
deriving DecidableEq

/-- State of the preview-estimate mechanism: the `estimateSeq` ref
(page.tsx line 285) and the displayed output dimensions. -/
structure EstState where
  seq : ℕ
  outW : ℤ
  outH : ℤ
deriving DecidableEq

/-- Events of the preview-estimate mechanism: `issue` is the start of an
invocation (`const mySeq = ++estimateSeq.current`, page.tsx line 317,
which tags the invocation with the incremented counter), and
`complete tag d` is an invocation tagged `tag` finishing with result `d`. -/
inductive EstEvent where
  | issue : EstEvent
  | complete : ℕ → EstDim → EstEvent
deriving DecidableEq

/-- One step of the preview-estimate mechanism.  A completion applies its
result only when its tag is still the current sequence number
(`if (estimateSeq.current !== mySeq) return;`, page.tsx line 321). -/
def estStep (st : EstState) : EstEvent → EstState
  | EstEvent.issue => { st with seq := st.seq + 1 }
  | EstEvent.complete tag d =>
    if st.seq = tag then { st with outW := d.w, outH := d.h } else st

/-- Run a sequence of preview-estimate events from a state. -/
def estRun (st : EstState) (evs : List EstEvent) : EstState := evs.foldl estStep st

/-- Encoder that always produces an empty (0-byte) blob: every probe fits
the budget. -/
def encZero : ℚ → ℕ := fun _ => 0

/-- Two-dimensional version of `encZero` for the outer search. -/
def enc2Zero : ℤ → ℤ → ℚ → ℕ := fun _ _ => encZero

/-- Encoder that always produces a blob one byte over the budget: no probe
ever fits, at any size or quality. -/
def encHuge : ℚ → ℕ := fun _ => MAX_BYTES + 1

/-- Two-dimensional version of `encHuge` for the outer search. -/
def enc2Huge : ℤ → ℤ → ℚ → ℕ := fun _ _ => encHuge

/-! Generic facts about the shared bisection loop. -/

section SearchLemmas

variable (fit : ℚ → Prop) [DecidablePred fit] {α : Type} (mk : ℚ → α)

/-- Once a best candidate is recorded, the loop keeps returning some
candidate. -/
lemma searchLoop_some (n : ℕ) : ∀ (lo hi : ℚ) (b : α),
    ∃ b', searchLoop fit mk n lo hi (some b) = some b' := by
  induction n with
  | zero => intro lo hi b; exact ⟨b, rfl⟩
  | succ n ih =>
    intro lo hi b
    by_cases h : fit ((lo + hi) / 2)
    · simp only [searchLoop, if_pos h]; exact ih _ _ _
    · simp only [searchLoop, if_neg h]; exact ih _ _ _

/-- Any candidate the loop returns is either the initial one or was built
from a fitting probed midpoint. -/
lemma searchLoop_eq_some (n : ℕ) : ∀ (lo hi : ℚ) (best : Option α) (b : α),
    searchLoop fit mk n lo hi best = some b →
    best = some b ∨ ∃ q ∈ searchSamples fit n lo hi, fit q ∧ b = mk q := by
  induction n with
  | zero => intro lo hi best b h; exact Or.inl h
  | succ n ih =>
    intro lo hi best b h
    by_cases hf : fit ((lo + hi) / 2)
    · simp only [searchLoop, if_pos hf] at h
      rcases ih _ _ _ _ h with h1 | ⟨q, hq, hfq, hb⟩
      · refine Or.inr ⟨(lo + hi) / 2, by simp [searchSamples], hf, ?_⟩
        exact (Option.some.inj h1).symm
      · refine Or.inr ⟨q, ?_, hfq, hb⟩
        simp only [searchSamples, if_pos hf, List.mem_cons]
        exact Or.inr hq
    · simp only [searchLoop, if_neg hf] at h
      rcases ih _ _ _ _ h with h1 | ⟨q, hq, hfq, hb⟩
      · exact Or.inl h1
      · refine Or.inr ⟨q, ?_, hfq, hb⟩
        simp only [searchSamples, if_neg hf, List.mem_cons]
        exact Or.inr hq

/-- Starting from no candidate, the loop returns none exactly when no
probed midpoint fits. -/
lemma searchLoop_none_iff (n : ℕ) : ∀ (lo hi : ℚ),
    (searchLoop fit mk n lo hi none = none ↔
      ∀ q ∈ searchSamples fit n lo hi, ¬ fit q) := by
  induction n with
  | zero => intro lo hi; simp [searchLoop, searchSamples]
  | succ n ih =>
    intro lo hi
    by_cases hf : fit ((lo + hi) / 2)
    · simp only [searchLoop, if_pos hf]
      constructor
      · intro h
        obtain ⟨b', hb'⟩ := searchLoop_some fit mk n ((lo + hi) / 2) hi
          (mk ((lo + hi) / 2))
        rw [h] at hb'
        exact absurd hb' (by simp)
      · intro h
        exact absurd hf (h _ (by simp [searchSamples]))
    · simp only [searchLoop, if_neg hf]
      rw [ih]
      constructor
      · intro h q hq
        simp only [searchSamples, if_neg hf, List.mem_cons] at hq
        rcases hq with rfl | hq'
        · exact hf
        · exact h q hq'
      · intro h q hq
        refine h q ?_
        simp only [searchSamples, if_neg hf, List.mem_cons]
        exact Or.inr hq

/-- Every probed midpoint lies strictly inside the initial interval. -/
lemma searchSamples_mem_Ioo (n : ℕ) : ∀ (lo hi : ℚ), lo < hi →
    ∀ q ∈ searchSamples fit n lo hi, lo < q ∧ q < hi := by
  induction n with
  | zero => intro lo hi _ q hq; simp [searchSamples] at hq
  | succ n ih =>
    intro lo hi hlh q hq
    have hm1 : lo < (lo + hi) / 2 := by linarith
    have hm2 : (lo + hi) / 2 < hi := by linarith
    by_cases hf : fit ((lo + hi) / 2)
    · simp only [searchSamples, if_pos hf, List.mem_cons] at hq
      rcases hq with rfl | hq
      · exact ⟨hm1, hm2⟩
      · obtain ⟨h1, h2⟩ := ih _ _ hm2 q hq
        exact ⟨lt_trans hm1 h1, h2⟩
    · simp only [searchSamples, if_neg hf, List.mem_cons] at hq
      rcases hq with rfl | hq
      · exact ⟨hm1, hm2⟩
      · obtain ⟨h1, h2⟩ := ih _ _ hm1 q hq
        exact ⟨h1, lt_trans h2 hm2⟩

/-- When no probed midpoint fits, the loop leaves the running best
untouched. -/
lemma searchLoop_of_no_fit (n : ℕ) : ∀ (lo hi : ℚ) (best : Option α),
    (∀ q ∈ searchSamples fit n lo hi, ¬ fit q) →
    searchLoop fit mk n lo hi best = best := by
  induction n with
  | zero => intro lo hi best _; rfl
  | succ n ih =>
    intro lo hi best h
    have hf : ¬ fit ((lo + hi) / 2) := h _ (by simp [searchSamples])
    simp only [searchLoop, if_neg hf]
    refine ih _ _ _ (fun q hq => h q ?_)
    simp only [searchSamples, if_neg hf, List.mem_cons]
    exact Or.inr hq

/-- When some probed midpoint fits, the loop returns the candidate built
from the largest fitting probed midpoint. -/
lemma searchLoop_max_fit (n : ℕ) : ∀ (lo hi : ℚ) (best : Option α), lo < hi →
    (∃ q ∈ searchSamples fit n lo hi, fit q) →
    ∃ q, q ∈ searchSamples fit n lo hi ∧ fit q ∧
      (∀ q' ∈ searchSamples fit n lo hi, fit q' → q' ≤ q) ∧
      searchLoop fit mk n lo hi best = some (mk q) := by
  induction n with
  | zero => intro lo hi best _ h; simp [searchSamples] at h
  | succ n ih =>
    intro lo hi best hlh hex
    have hm1 : lo < (lo + hi) / 2 := by linarith
    have hm2 : (lo + hi) / 2 < hi := by linarith
    by_cases hf : fit ((lo + hi) / 2)
    · by_cases hex2 : ∃ q ∈ searchSamples fit n ((lo + hi) / 2) hi, fit q
      · obtain ⟨q, hqmem, hqfit, hqmax, hqloop⟩ :=
          ih ((lo + hi) / 2) hi (some (mk ((lo + hi) / 2))) hm2 hex2
        refine ⟨q, ?_, hqfit, ?_, ?_⟩
        · simp only [searchSamples, if_pos hf, List.mem_cons]
          exact Or.inr hqmem
        · intro q' hq' hfq'
          simp only [searchSamples, if_pos hf, List.mem_cons] at hq'
          rcases hq' with rfl | hq'
          · exact le_of_lt (searchSamples_mem_Ioo fit n _ _ hm2 q hqmem).1
          · exact hqmax q' hq' hfq'
        · simp only [searchLoop, if_pos hf]; exact hqloop
      · push_neg at hex2
        refine ⟨(lo + hi) / 2, by simp [searchSamples], hf, ?_, ?_⟩
        · intro q' hq' hfq'
          simp only [searchSamples, if_pos hf, List.mem_cons] at hq'
          rcases hq' with rfl | hq'
          · exact le_refl _
          · exact absurd hfq' (hex2 q' hq')
        · simp only [searchLoop, if_pos hf]
          exact searchLoop_of_no_fit fit mk n _ _ _ hex2
    · have hex' : ∃ q ∈ searchSamples fit n lo ((lo + hi) / 2), fit q := by
        obtain ⟨q, hq, hfq⟩ := hex
        simp only [searchSamples, if_neg hf, List.mem_cons] at hq
        rcases hq with rfl | hq
        · exact absurd hfq hf
        · exact ⟨q, hq, hfq⟩
      obtain ⟨q, hqmem, hqfit, hqmax, hqloop⟩ := ih lo ((lo + hi) / 2) best hm1 hex'
      refine ⟨q, ?_, hqfit, ?_, ?_⟩
      · simp only [searchSamples, if_neg hf, List.mem_cons]
        exact Or.inr hqmem
      · intro q' hq' hfq'
        simp only [searchSamples, if_neg hf, List.mem_cons] at hq'
        rcases hq' with rfl | hq'
        · exact absurd hfq' hf
        · exact hqmax q' hq' hfq'
      · simp only [searchLoop, if_neg hf]; exact hqloop

end SearchLemmas

/-- A constant encoder yields a blob of exactly its constant size, on both
the search path and the fallback path. -/
lemma encodeJpegUnder2MB_const_size (c : ℕ) :
    (encodeJpegUnder2MB (fun _ => c)).size = c := by
  unfold encodeJpegUnder2MB
  cases heq : searchLoop (innerFit (fun _ => c)) (innerMk (fun _ => c)) 8
      (1 / 2) (19 / 20) none with
  | none => simp
  | some b =>
    rcases searchLoop_eq_some (innerFit (fun _ => c)) (innerMk (fun _ => c)) 8
      (1 / 2) (19 / 20) none b heq with h | ⟨q, _, _, hb⟩
    · exact absurd h (by simp)
    · simp [hb, innerMk]

/-- Under the all-zero encoder every scale probe fits the budget. -/
lemma outerFit_enc2Zero (maxW maxH : ℤ) (s : ℚ) : outerFit enc2Zero maxW maxH s := by
  have h : (encodeJpegUnder2MB encZero).size = 0 := encodeJpegUnder2MB_const_size 0
  simp only [outerFit, enc2Zero, h]
  exact Nat.zero_le _

/-- Under the over-budget encoder no scale probe ever fits the budget. -/
lemma outerFit_enc2Huge (maxW maxH : ℤ) (s : ℚ) : ¬ outerFit enc2Huge maxW maxH s := by
  have h : (encodeJpegUnder2MB encHuge).size = MAX_BYTES + 1 :=
    encodeJpegUnder2MB_const_size (MAX_BYTES + 1)
  simp only [outerFit, enc2Huge, h]
  omega

/-- C1: for every canvas and the fixed 2 MB budget, `encodeJpegUnder2MB`
always returns a blob-quality pair (totality is by construction: the model
returns a plain `EncResult`, never `none`, and a total encoder gives a
total search), and if at least one of the 8 probed midpoint qualities
yields an encoding of size at most the budget, then the returned blob's
size is at most the budget. -/
theorem encodeJpegUnder2MB_size_le_budget (enc : ℚ → ℕ)
    (h : ∃ q ∈ encodeQualitySamples enc, enc q ≤ MAX_BYTES) :
    (encodeJpegUnder2MB enc).size ≤ MAX_BYTES := by
  simp only [encodeQualitySamples] at h
  unfold encodeJpegUnder2MB
  cases heq : searchLoop (innerFit enc) (innerMk enc) 8 (1 / 2) (19 / 20) none with
  | none =>
    rw [searchLoop_none_iff] at heq
    obtain ⟨q, hq, hfit⟩ := h
    exact absurd hfit (heq q hq)
  | some b =>
    rcases searchLoop_eq_some (innerFit enc) (innerMk enc) 8
      (1 / 2) (19 / 20) none b heq with h1 | ⟨q, _, hfq, hb⟩
    · exact absurd h1 (by simp)
    · simpa [hb, innerMk] using hfq

/-- Witness for C1: with the all-zero encoder the first probed quality
fits, and the returned size is under budget. -/
theorem encodeJpegUnder2MB_size_le_budget_witness :
    (encodeJpegUnder2MB encZero).size ≤ MAX_BYTES :=
  encodeJpegUnder2MB_size_le_budget encZero
    ⟨(1 / 2 + 19 / 20) / 2,
      by simp only [encodeQualitySamples, searchSamples]; exact List.mem_cons_self _ _,
      Nat.zero_le _⟩

/-- C9: the quality returned by `encodeJpegUnder2MB` always lies in
`[0.5, 0.95)`; it equals exactly `0.5` if and only if no probed midpoint
quality produced an encoding within the budget (the fallback branch); and
every probed midpoint quality lies strictly between `0.5` and `0.95`. -/
theorem encodeJpegUnder2MB_quality_range (enc : ℚ → ℕ) :
    (1 / 2 ≤ (encodeJpegUnder2MB enc).q ∧ (encodeJpegUnder2MB enc).q < 19 / 20) ∧
    ((encodeJpegUnder2MB enc).q = 1 / 2 ↔
      ∀ q ∈ encodeQualitySamples enc, ¬ enc q ≤ MAX_BYTES) ∧
    (∀ q ∈ encodeQualitySamples enc, 1 / 2 < q ∧ q < 19 / 20) := by
  have hsb : ∀ q ∈ encodeQualitySamples enc, 1 / 2 < q ∧ q < 19 / 20 := by
    intro q hq
    simp only [encodeQualitySamples] at hq
    exact searchSamples_mem_Ioo (innerFit enc) 8 (1 / 2) (19 / 20) (by norm_num) q hq
  unfold encodeJpegUnder2MB
  cases heq : searchLoop (innerFit enc) (innerMk enc) 8 (1 / 2) (19 / 20) none with
  | none =>
    rw [searchLoop_none_iff] at heq
    refine ⟨⟨le_refl _, by norm_num⟩, ?_, hsb⟩
    constructor
    · intro _ q hq
      simp only [encodeQualitySamples] at hq
      exact heq q hq
    · intro _; rfl
  | some b =>
    rcases searchLoop_eq_some (innerFit enc) (innerMk enc) 8
      (1 / 2) (19 / 20) none b heq with h1 | ⟨q0, hq0, hfq0, hb⟩
    · exact absurd h1 (by simp)
    · subst hb
      have hq0b : 1 / 2 < q0 ∧ q0 < 19 / 20 := by
        refine hsb q0 ?_
        simp only [encodeQualitySamples]
        exact hq0
      refine ⟨⟨le_of_lt (by simpa [innerMk] using hq0b.1),
        by simpa [innerMk] using hq0b.2⟩, ?_, hsb⟩
      constructor
      · intro hq
        simp only [innerMk] at hq
        exact absurd hq (by linarith [hq0b.1])
      · intro hall
        refine absurd hfq0 ?_
        have := hall q0 (by simp only [encodeQualitySamples]; exact hq0)
        simpa [innerFit] using this

/-- C2: when at least one probed scale midpoint of the outer search fits
the byte budget (its optimal-quality encoding is within `MAX_BYTES`), the
result of `findBestSizeAndEncode` has the width and height of the largest
fitting probed scale. -/
theorem findBestSizeAndEncode_max_scale (enc2 : ℤ → ℤ → ℚ → ℕ) (cropW cropH : ℚ)
    (h : ∃ s ∈ scaleSamples enc2 cropW cropH, outerFit enc2 ⌊cropW⌋ ⌊cropH⌋ s) :
    ∃ s, s ∈ scaleSamples enc2 cropW cropH ∧ outerFit enc2 ⌊cropW⌋ ⌊cropH⌋ s ∧
      (∀ s' ∈ scaleSamples enc2 cropW cropH, outerFit enc2 ⌊cropW⌋ ⌊cropH⌋ s' → s' ≤ s) ∧
      (findBestSizeAndEncode enc2 cropW cropH).w = scaleDim ⌊cropW⌋ s ∧
      (findBestSizeAndEncode enc2 cropW cropH).h = scaleDim ⌊cropH⌋ s := by
  simp only [scaleSamples] at h ⊢
  obtain ⟨s, hmem, hfit, hmax, hloop⟩ :=
    searchLoop_max_fit (outerFit enc2 ⌊cropW⌋ ⌊cropH⌋) (outerMk enc2 ⌊cropW⌋ ⌊cropH⌋)
      8 (1 / 5) 1 none (by norm_num) h
  refine ⟨s, hmem, hfit, hmax, ?_, ?_⟩
  · unfold findBestSizeAndEncode
    rw [hloop]
    rfl
  · unfold findBestSizeAndEncode
    rw [hloop]
    rfl

/-- Witness for C2: with the all-zero encoder and a 100 × 100 crop the
first probed scale fits, so the conclusion holds at this input. -/
theorem findBestSizeAndEncode_max_scale_witness :
    ∃ s, s ∈ scaleSamples enc2Zero 100 100 ∧
      outerFit enc2Zero ⌊(100 : ℚ)⌋ ⌊(100 : ℚ)⌋ s ∧
      (∀ s' ∈ scaleSamples enc2Zero 100 100,
        outerFit enc2Zero ⌊(100 : ℚ)⌋ ⌊(100 : ℚ)⌋ s' → s' ≤ s) ∧
      (findBestSizeAndEncode enc2Zero 100 100).w = scaleDim ⌊(100 : ℚ)⌋ s ∧
      (findBestSizeAndEncode enc2Zero 100 100).h = scaleDim ⌊(100 : ℚ)⌋ s :=
  findBestSizeAndEncode_max_scale enc2Zero 100 100
    ⟨(1 / 5 + 1) / 2,
      by simp only [scaleSamples, searchSamples]; exact List.mem_cons_self _ _,
      outerFit_enc2Zero _ _ _⟩

/-- Counterexample to C3 as stated: the output of `findBestSizeAndEncode`
can exceed the crop region's pixel dimensions.  With a crop of
2.1 × 2.8 px and an encoder that never fits the budget, the fallback
returns height `Math.round(2 * 4/3) = 3 > 2.8`; and with a 0.5 × 0.9 px
crop and an encoder that always fits, the sampled branch returns width
`max(1, floor(0 * s)) = 1 > 0.5`. -/
theorem findBest_can_exceed_crop_dims :
    ¬ (((findBestSizeAndEncode enc2Huge (21 / 10) (14 / 5)).h : ℚ) ≤ 14 / 5) ∧
    ¬ (((findBestSizeAndEncode enc2Zero (1 / 2) (9 / 10)).w : ℚ) ≤ 1 / 2) := by
  constructor
  · have hloop : searchLoop (outerFit enc2Huge ⌊(21 / 10 : ℚ)⌋ ⌊(14 / 5 : ℚ)⌋)
        (outerMk enc2Huge ⌊(21 / 10 : ℚ)⌋ ⌊(14 / 5 : ℚ)⌋) 8 (1 / 5) 1 none = none :=
      searchLoop_of_no_fit _ _ 8 _ _ none (fun q _ => outerFit_enc2Huge _ _ q)
    unfold findBestSizeAndEncode
    rw [hloop]
    have hfw : ⌊(21 / 10 : ℚ)⌋ = 2 := by norm_num
    have hfh : ⌊(14 / 5 : ℚ)⌋ = 2 := by norm_num
    dsimp only
    rw [hfw]
    have hmin : min (800 : ℤ) 2 = 2 := by norm_num
    rw [hmin]
    have hround : jsRound (((2 : ℤ) : ℚ) * (ASPECT_H / ASPECT_W)) = 3 := by
      norm_num [jsRound, ASPECT_H, ASPECT_W]
    rw [hround]
    norm_num
  · obtain ⟨s, hmem, hfit, hmax, hloop⟩ :=
      searchLoop_max_fit (outerFit enc2Zero ⌊(1 / 2 : ℚ)⌋ ⌊(9 / 10 : ℚ)⌋)
        (outerMk enc2Zero ⌊(1 / 2 : ℚ)⌋ ⌊(9 / 10 : ℚ)⌋) 8 (1 / 5) 1 none
        (by norm_num)
        ⟨(1 / 5 + 1) / 2,
          by simp only [searchSamples]; exact List.mem_cons_self _ _,
          outerFit_enc2Zero _ _ _⟩
    unfold findBestSizeAndEncode
    rw [hloop]
    have hfw : ⌊(1 / 2 : ℚ)⌋ = 0 := by norm_num
    dsimp only [outerMk]
    rw [hfw]
    have h1 : scaleDim 0 s = 1 := by
      simp [scaleDim]
    rw [h1]
    norm_num

/-- C3 amended: provided the floored crop dimensions are at least 1 px,
the result width never exceeds the floored crop width (both branches),
and whenever some probed scale fits the budget (the sampled branch), the
result height never exceeds the floored crop height.  The fallback branch
can exceed the crop height, as the counterexample shows. -/
theorem findBest_no_upscale (enc2 : ℤ → ℤ → ℚ → ℕ) (cropW cropH : ℚ)
    (hW : 1 ≤ ⌊cropW⌋) (hH : 1 ≤ ⌊cropH⌋) :
    (findBestSizeAndEncode enc2 cropW cropH).w ≤ ⌊cropW⌋ ∧
    ((∃ s ∈ scaleSamples enc2 cropW cropH, outerFit enc2 ⌊cropW⌋ ⌊cropH⌋ s) →
      (findBestSizeAndEncode enc2 cropW cropH).h ≤ ⌊cropH⌋) := by
  have key : ∀ (d : ℤ) (s : ℚ), 1 ≤ d → s < 1 → scaleDim d s ≤ d := by
    intro d s hd hs1
    have hd' : (0 : ℚ) ≤ (d : ℚ) := by exact_mod_cast le_trans zero_le_one hd
    have h1 : (d : ℚ) * s ≤ (d : ℚ) := mul_le_of_le_one_right hd' (le_of_lt hs1)
    have h2 : ⌊(d : ℚ) * s⌋ ≤ d := by
      calc ⌊(d : ℚ) * s⌋ ≤ ⌊(d : ℚ)⌋ := Int.floor_le_floor h1
        _ = d := Int.floor_intCast d
    exact max_le hd h2
  unfold findBestSizeAndEncode
  cases heq : searchLoop (outerFit enc2 ⌊cropW⌋ ⌊cropH⌋) (outerMk enc2 ⌊cropW⌋ ⌊cropH⌋)
      8 (1 / 5) 1 none with
  | none =>
    constructor
    · dsimp only
      exact min_le_right _ _
    · intro hex
      obtain ⟨s, hmem, hfit, hmax, hloop⟩ :=
        searchLoop_max_fit (outerFit enc2 ⌊cropW⌋ ⌊cropH⌋) (outerMk enc2 ⌊cropW⌋ ⌊cropH⌋)
          8 (1 / 5) 1 none (by norm_num) (by simpa [scaleSamples] using hex)
      rw [heq] at hloop
      exact absurd hloop (by simp)
  | some b =>
    rcases searchLoop_eq_some (outerFit enc2 ⌊cropW⌋ ⌊cropH⌋) (outerMk enc2 ⌊cropW⌋ ⌊cropH⌋)
      8 (1 / 5) 1 none b heq with h1 | ⟨s, hsmem, hsfit, hb⟩
    · exact absurd h1 (by simp)
    · subst hb
      have hsIoo :=
        searchSamples_mem_Ioo (outerFit enc2 ⌊cropW⌋ ⌊cropH⌋) 8 (1 / 5) 1
          (by norm_num) s hsmem
      constructor
      · exact key ⌊cropW⌋ s hW hsIoo.2
      · intro _
        exact key ⌊cropH⌋ s hH hsIoo.2

/-- Witness for C3 amended: a 100 × 100 crop under the all-zero encoder. -/
theorem findBest_no_upscale_witness :
    (findBestSizeAndEncode enc2Zero 100 100).w ≤ ⌊(100 : ℚ)⌋ ∧
    ((∃ s ∈ scaleSamples enc2Zero 100 100,
        outerFit enc2Zero ⌊(100 : ℚ)⌋ ⌊(100 : ℚ)⌋ s) →
      (findBestSizeAndEncode enc2Zero 100 100).h ≤ ⌊(100 : ℚ)⌋) :=
  findBest_no_upscale enc2Zero 100 100 (by norm_num) (by norm_num)

/-- C5: when no probed scale of the outer search fits the budget, the
fallback branch engages and returns a result (totality is by
construction) with width `min 800 ⌊cropW⌋ ≤ 800` and height
`Math.round(targetW * (ASPECT_H / ASPECT_W))`; the byte-size contract is
not re-checked on this branch, so the fallback result may exceed the
budget. -/
theorem findBest_fallback (enc2 : ℤ → ℤ → ℚ → ℕ) (cropW cropH : ℚ)
    (h : ∀ s ∈ scaleSamples enc2 cropW cropH, ¬ outerFit enc2 ⌊cropW⌋ ⌊cropH⌋ s) :
    (findBestSizeAndEncode enc2 cropW cropH).w = min 800 ⌊cropW⌋ ∧
    (findBestSizeAndEncode enc2 cropW cropH).w ≤ 800 ∧
    (findBestSizeAndEncode enc2 cropW cropH).h =
      jsRound (((min 800 ⌊cropW⌋ : ℤ) : ℚ) * (ASPECT_H / ASPECT_W)) := by
  have hloop : searchLoop (outerFit enc2 ⌊cropW⌋ ⌊cropH⌋) (outerMk enc2 ⌊cropW⌋ ⌊cropH⌋)
      8 (1 / 5) 1 none = none :=
    searchLoop_of_no_fit _ _ 8 _ _ none (by simpa [scaleSamples] using h)
  unfold findBestSizeAndEncode
  rw [hloop]
  dsimp only
  exact ⟨rfl, min_le_left _ _, rfl⟩

/-- Witness for C5: the spec's scenario of a 1200 × 1600 px crop that the
encoder cannot compress under the budget at any size and quality; the
fallback returns width `min 800 1200 = 800`. -/
theorem findBest_fallback_witness :
    (findBestSizeAndEncode enc2Huge 1200 1600).w = min 800 ⌊(1200 : ℚ)⌋ ∧
    (findBestSizeAndEncode enc2Huge 1200 1600).w ≤ 800 ∧
    (findBestSizeAndEncode enc2Huge 1200 1600).h =
      jsRound (((min 800 ⌊(1200 : ℚ)⌋ : ℤ) : ℚ) * (ASPECT_H / ASPECT_W)) :=
  findBest_fallback enc2Huge 1200 1600 (fun s _ => outerFit_enc2Huge _ _ s)

/-- The target aspect ratio evaluates to 3/4. -/
lemma TARGET_AR_eq : TARGET_AR = 3 / 4 := by
  norm_num [TARGET_AR, ASPECT_W, ASPECT_H]

/-- The zoom-1 view height is at least 1 px on a raster of at least
1 × 1 px. -/
lemma one_le_baseHOf (W H : ℤ) (hW : 1 ≤ W) (hH : 1 ≤ H) : 1 ≤ baseHOf W H := by
  have hWq : (1 : ℚ) ≤ (W : ℚ) := by exact_mod_cast hW
  have hHq : (1 : ℚ) ≤ (H : ℚ) := by exact_mod_cast hH
  have hdiv : (W : ℚ) / TARGET_AR = (W : ℚ) * (4 / 3) := by rw [TARGET_AR_eq]; ring
  unfold baseHOf
  split_ifs with hc
  · have h1 : (1 : ℤ) ≤ jsRound ((W : ℚ) / TARGET_AR) := by
      rw [jsRound, Int.le_floor, hdiv]
      push_cast
      linarith
    exact_mod_cast h1
  · exact hHq

/-- The zoom-1 view height never exceeds the raster height (the rounding
in the first branch cannot overshoot because `H` is an integer). -/
lemma baseHOf_le (W H : ℤ) : baseHOf W H ≤ (H : ℚ) := by
  unfold baseHOf
  split_ifs with hc
  · have h2 : ⌊(H : ℚ) + 1 / 2⌋ = H := by
      rw [Int.floor_int_add]
      norm_num
    have h1 : jsRound ((W : ℚ) / TARGET_AR) ≤ H := by
      rw [jsRound]
      calc ⌊(W : ℚ) / TARGET_AR + 1 / 2⌋ ≤ ⌊(H : ℚ) + 1 / 2⌋ :=
            Int.floor_le_floor (by linarith)
        _ = H := h2
    exact_mod_cast h1
  · exact le_refl _

/-- The zoom-1 view width `TARGET_AR * baseH` can overshoot the raster
width, but by less than 3/8 px (the rounding of `baseH` adds at most 1/2
px of height, hence at most 3/8 px of width). -/
lemma baseHOf_ar_le (W H : ℤ) : TARGET_AR * baseHOf W H ≤ (W : ℚ) + 3 / 8 := by
  have hdiv : (W : ℚ) / TARGET_AR = (W : ℚ) * (4 / 3) := by rw [TARGET_AR_eq]; ring
  unfold baseHOf
  split_ifs with hc
  · have h1 : ((jsRound ((W : ℚ) / TARGET_AR) : ℤ) : ℚ) ≤ (W : ℚ) * (4 / 3) + 1 / 2 := by
      rw [jsRound]
      refine le_trans (Int.floor_le _) (le_of_eq ?_)
      rw [hdiv]
    have h3 : ∀ r : ℤ, ((r : ℤ) : ℚ) ≤ (W : ℚ) * (4 / 3) + 1 / 2 →
        TARGET_AR * ((r : ℤ) : ℚ) ≤ (W : ℚ) + 3 / 8 := by
      intro r hr
      rw [TARGET_AR_eq]
      linarith
    exact h3 _ h1
  · push_neg at hc
    rw [hdiv] at hc
    rw [TARGET_AR_eq]
    linarith

/-- Core containment facts for the view rectangle produced by the shared
tail of `autoAlign`, for any desired height, centering point and vertical
fraction: the left and top edges are nonnegative, the bottom edge stays
within the raster, the right edge overshoots the raster width by at most
3/8 px, the view height is positive, and the aspect ratio is exactly
`TARGET_AR`. -/
lemma alignFrom_spec (W H : ℤ) (hW : 1 ≤ W) (hH : 1 ≤ H) (d cx cy frac : ℚ) :
    0 ≤ viewLeft W (alignFrom W H d cx cy frac) ∧
    viewLeft W (alignFrom W H d cx cy frac) +
      viewWidth W H (alignFrom W H d cx cy frac) ≤ (W : ℚ) + 3 / 8 ∧
    0 ≤ viewTop H (alignFrom W H d cx cy frac) ∧
    viewTop H (alignFrom W H d cx cy frac) +
      viewHeight W H (alignFrom W H d cx cy frac) ≤ (H : ℚ) ∧
    0 < viewHeight W H (alignFrom W H d cx cy frac) ∧
    viewWidth W H (alignFrom W H d cx cy frac) /
      viewHeight W H (alignFrom W H d cx cy frac) = TARGET_AR := by
  have hWq : (1 : ℚ) ≤ (W : ℚ) := by exact_mod_cast hW
  have hHq : (1 : ℚ) ≤ (H : ℚ) := by exact_mod_cast hH
  have hW0 : (W : ℚ) ≠ 0 := by linarith
  have hH0 : (H : ℚ) ≠ 0 := by linarith
  have hb1 : 1 ≤ baseHOf W H := one_le_baseHOf W H hW hH
  have hbH : baseHOf W H ≤ (H : ℚ) := baseHOf_le W H
  have hbW : TARGET_AR * baseHOf W H ≤ (W : ℚ) + 3 / 8 := baseHOf_ar_le W H
  set b := baseHOf W H with hbdef
  set z := max 1 (min 5 (b / d)) with hzdef
  have hz1 : (1 : ℚ) ≤ z := le_max_left _ _
  have hz0 : (0 : ℚ) < z := lt_of_lt_of_le one_pos hz1
  set vH := b / z with hvHdef
  have hvH0 : (0 : ℚ) < vH := div_pos (by linarith) hz0
  have hvHb : vH ≤ b := div_le_self (by linarith) hz1
  have hvHH : vH ≤ (H : ℚ) := le_trans hvHb hbH
  set vW := vH * TARGET_AR with hvWdef
  have hvWW : vW ≤ (W : ℚ) + 3 / 8 := by
    have h1 : vW ≤ TARGET_AR * b := by
      rw [hvWdef, mul_comm]
      refine mul_le_mul_of_nonneg_left hvHb ?_
      rw [TARGET_AR_eq]
      norm_num
    linarith
  set left := max 0 (min (cx - vW / 2) ((W : ℚ) - vW)) with hleftdef
  set top := max 0 (min (cy - frac * vH) ((H : ℚ) - vH)) with htopdef
  have hres : alignFrom W H d cx cy frac =
      ⟨z, -(left / (W : ℚ)) * 100, -(top / (H : ℚ)) * 100⟩ := rfl
  have hL : viewLeft W (alignFrom W H d cx cy frac) = left := by
    rw [hres]
    simp only [viewLeft, leftFromOffset]
    field_simp
    ring
  have hT : viewTop H (alignFrom W H d cx cy frac) = top := by
    rw [hres]
    simp only [viewTop, topFromOffset]
    field_simp
    ring
  have hVH : viewHeight W H (alignFrom W H d cx cy frac) = vH := by
    rw [hres]
    simp only [viewHeight]
  have hVW : viewWidth W H (alignFrom W H d cx cy frac) = vW := by
    rw [viewWidth, hVH]
  rw [hL, hT, hVH, hVW]
  refine ⟨le_max_left _ _, ?_, le_max_left _ _, ?_, hvH0, ?_⟩
  · by_cases hc : vW ≤ (W : ℚ)
    · have hl : left ≤ (W : ℚ) - vW := by
        rw [hleftdef]
        exact max_le (by linarith) (min_le_right _ _)
      linarith
    · have hneg : min (cx - vW / 2) ((W : ℚ) - vW) ≤ 0 := by
        have := min_le_right (cx - vW / 2) ((W : ℚ) - vW)
        linarith [not_le.mp hc]
      have hl0 : left = 0 := by
        rw [hleftdef]
        exact max_eq_left hneg
      rw [hl0]
      linarith
  · have ht : top ≤ (H : ℚ) - vH := by
      rw [htopdef]
      exact max_le (by linarith) (min_le_right _ _)
    linarith
  · rw [hvWdef]
    exact mul_div_cancel_left₀ _ (ne_of_gt hvH0)

/-- Counterexample to C4 as stated: exact containment fails.  For a
302 × 500 raster with no face box, `baseH = round(302 / (3/4)) = 403`,
zoom is 1, and the derived view width is `403 * 3/4 = 302.25 > 302`, so
the view rectangle sticks 1/4 px out of the raster on the right even
though the left edge is clamped to 0. -/
theorem autoAlign_view_not_contained :
    ¬ (viewLeft 302 (autoAlign 302 500 none (38 / 100)) +
        viewWidth 302 500 (autoAlign 302 500 none (38 / 100)) ≤ ((302 : ℤ) : ℚ)) := by
  have hb : baseHOf 302 500 = 403 := by
    norm_num [baseHOf, TARGET_AR_eq, jsRound]
  have hzoom : (autoAlign 302 500 none (38 / 100)).zoom = 1 := by
    show max 1 (min 5 (baseHOf 302 500 / baseHOf 302 500)) = 1
    rw [hb]
    norm_num
  have hcx : (autoAlign 302 500 none (38 / 100)).cropX = 0 := by
    show -(max 0 (min (((302 : ℤ) : ℚ) / 2 -
        baseHOf 302 500 / max 1 (min 5 (baseHOf 302 500 / baseHOf 302 500)) * TARGET_AR / 2)
        (((302 : ℤ) : ℚ) - baseHOf 302 500 /
          max 1 (min 5 (baseHOf 302 500 / baseHOf 302 500)) * TARGET_AR)) /
        ((302 : ℤ) : ℚ)) * 100 = 0
    rw [hb, TARGET_AR_eq]
    norm_num [min_def, max_def]
  have hL : viewLeft 302 (autoAlign 302 500 none (38 / 100)) = 0 := by
    rw [viewLeft, hcx]
    norm_num [leftFromOffset]
  have hVW : viewWidth 302 500 (autoAlign 302 500 none (38 / 100)) = 1209 / 4 := by
    rw [viewWidth, viewHeight, hzoom, hb, TARGET_AR_eq]
    norm_num
  rw [hL, hVW]
  norm_num

/-- C4 amended: for any raster of at least 1 × 1 px and any face box
(including none and boxes larger than the raster), the view rectangle
derived from the `autoAlign` output is vertically contained in the
raster, its left edge is nonnegative, its right edge exceeds the raster
width by at most 3/8 px (exact horizontal containment can fail by up to
1/4 px, as the counterexample shows), and its aspect ratio equals the
target exactly. -/
theorem autoAlign_view_contained (W H : ℤ) (hW : 1 ≤ W) (hH : 1 ≤ H)
    (face : Option FaceBox) (frac : ℚ) :
    0 ≤ viewLeft W (autoAlign W H face frac) ∧
    viewLeft W (autoAlign W H face frac) +
      viewWidth W H (autoAlign W H face frac) ≤ (W : ℚ) + 3 / 8 ∧
    0 ≤ viewTop H (autoAlign W H face frac) ∧
    viewTop H (autoAlign W H face frac) +
      viewHeight W H (autoAlign W H face frac) ≤ (H : ℚ) ∧
    0 < viewHeight W H (autoAlign W H face frac) ∧
    viewWidth W H (autoAlign W H face frac) /
      viewHeight W H (autoAlign W H face frac) = TARGET_AR := by
  rcases face with _ | f
  · exact alignFrom_spec W H hW hH _ _ _ _
  · exact alignFrom_spec W H hW hH _ _ _ _

/-- Witness for C4 amended: a 400 × 400 raster with no face box. -/
theorem autoAlign_view_contained_witness :
    0 ≤ viewLeft 400 (autoAlign 400 400 none (38 / 100)) ∧
    viewLeft 400 (autoAlign 400 400 none (38 / 100)) +
      viewWidth 400 400 (autoAlign 400 400 none (38 / 100)) ≤ ((400 : ℤ) : ℚ) + 3 / 8 ∧
    0 ≤ viewTop 400 (autoAlign 400 400 none (38 / 100)) ∧
    viewTop 400 (autoAlign 400 400 none (38 / 100)) +
      viewHeight 400 400 (autoAlign 400 400 none (38 / 100)) ≤ ((400 : ℤ) : ℚ) ∧
    0 < viewHeight 400 400 (autoAlign 400 400 none (38 / 100)) ∧
    viewWidth 400 400 (autoAlign 400 400 none (38 / 100)) /
      viewHeight 400 400 (autoAlign 400 400 none (38 / 100)) = TARGET_AR :=
  autoAlign_view_contained 400 400 (by norm_num) (by norm_num) none (38 / 100)

/-- C6: for every new fraction, zoom at least 1 and loaded raster of at
least 1 × 1 px, the new view top computed by `nudgeFaceY` lies within
`[0, H - viewHeight]` where `viewHeight = baseH / zoom`. -/
theorem nudgeFaceY_top_in_range (W H : ℤ) (st : CropState) (v : ℚ)
    (hW : 1 ≤ W) (hH : 1 ≤ H) (hz : 1 ≤ st.zoom) :
    0 ≤ topFromOffset H (nudgeFaceY W H st v).cropY ∧
    topFromOffset H (nudgeFaceY W H st v).cropY ≤ (H : ℚ) - baseHOf W H / st.zoom := by
  have hHq : (1 : ℚ) ≤ (H : ℚ) := by exact_mod_cast hH
  have hH0 : (H : ℚ) ≠ 0 := by linarith
  have hb0 : (0 : ℚ) ≤ baseHOf W H :=
    le_trans zero_le_one (one_le_baseHOf W H hW hH)
  have hvHH : baseHOf W H / st.zoom ≤ (H : ℚ) :=
    le_trans (div_le_self hb0 hz) (baseHOf_le W H)
  have hcy : (nudgeFaceY W H st v).cropY =
      -(max 0 (min ((-st.cropY * (1 / 100) * (H : ℚ) +
          st.faceYFrac * (baseHOf W H / st.zoom)) - v * (baseHOf W H / st.zoom))
          ((H : ℚ) - baseHOf W H / st.zoom)) / (H : ℚ)) * 100 := rfl
  rw [hcy]
  have hexp : ∀ t : ℚ, topFromOffset H (-(t / (H : ℚ)) * 100) = t := by
    intro t
    simp only [topFromOffset]
    field_simp
    ring
  rw [hexp]
  exact ⟨le_max_left _ _, max_le (by linarith) (min_le_right _ _)⟩

/-- Witness for C6: raster 300 × 400, zoom 1, centered crop, new fraction
0.40. -/
theorem nudgeFaceY_top_in_range_witness :
    0 ≤ topFromOffset 400 (nudgeFaceY 300 400 ⟨1, 0, 0, 38 / 100⟩ (40 / 100)).cropY ∧
    topFromOffset 400 (nudgeFaceY 300 400 ⟨1, 0, 0, 38 / 100⟩ (40 / 100)).cropY ≤
      ((400 : ℤ) : ℚ) - baseHOf 300 400 / (1 : ℚ) :=
  nudgeFaceY_top_in_range 300 400 ⟨1, 0, 0, 38 / 100⟩ (40 / 100)
    (by norm_num) (by norm_num) (by norm_num)

/-- C7: `nudgeFaceY` changes only the vertical component of the crop
offset: the zoom and the horizontal offset are preserved (the zoom is not
written at all, and the recomputed horizontal offset cancels back to the
input value in exact arithmetic, given a nonzero raster width). -/
theorem nudgeFaceY_preserves_zoom_and_x (W H : ℤ) (st : CropState) (v : ℚ)
    (hW : W ≠ 0) :
    (nudgeFaceY W H st v).zoom = st.zoom ∧
    (nudgeFaceY W H st v).cropX = st.cropX := by
  have hW0 : (W : ℚ) ≠ 0 := Int.cast_ne_zero.mpr hW
  refine ⟨rfl, ?_⟩
  show -((-st.cropX * (1 / 100) * (W : ℚ)) / (W : ℚ)) * 100 = st.cropX
  field_simp
  ring

/-- Witness for C7: raster 300 × 400, a generic state. -/
theorem nudgeFaceY_preserves_zoom_and_x_witness :
    (nudgeFaceY 300 400 ⟨2, -10, -20, 38 / 100⟩ (40 / 100)).zoom = (2 : ℚ) ∧
    (nudgeFaceY 300 400 ⟨2, -10, -20, 38 / 100⟩ (40 / 100)).cropX = (-10 : ℚ) :=
  nudgeFaceY_preserves_zoom_and_x 300 400 ⟨2, -10, -20, 38 / 100⟩ (40 / 100)
    (by norm_num)

/-- C10: calling `nudgeFaceY` with the current fraction is the identity on
the crop offset, provided the current view top already lies within
`[0, H - viewHeight]`: the approximate face center cancels exactly, the
clamp is the identity on an in-range top, and the offset round-trip is
exact in rational arithmetic. -/
theorem nudgeFaceY_identity (W H : ℤ) (st : CropState) (hW : W ≠ 0) (hH : H ≠ 0)
    (h0 : 0 ≤ topFromOffset H st.cropY)
    (h1 : topFromOffset H st.cropY ≤ (H : ℚ) - baseHOf W H / st.zoom) :
    (nudgeFaceY W H st st.faceYFrac).cropX = st.cropX ∧
    (nudgeFaceY W H st st.faceYFrac).cropY = st.cropY := by
  have hW0 : (W : ℚ) ≠ 0 := Int.cast_ne_zero.mpr hW
  have hH0 : (H : ℚ) ≠ 0 := Int.cast_ne_zero.mpr hH
  constructor
  · show -((-st.cropX * (1 / 100) * (W : ℚ)) / (W : ℚ)) * 100 = st.cropX
    field_simp
    ring
  · show -(max 0 (min ((-st.cropY * (1 / 100) * (H : ℚ) +
        st.faceYFrac * (baseHOf W H / st.zoom)) -
          st.faceYFrac * (baseHOf W H / st.zoom))
        ((H : ℚ) - baseHOf W H / st.zoom)) / (H : ℚ)) * 100 = st.cropY
    have hcancel : (-st.cropY * (1 / 100) * (H : ℚ) +
        st.faceYFrac * (baseHOf W H / st.zoom)) -
          st.faceYFrac * (baseHOf W H / st.zoom) = topFromOffset H st.cropY := by
      simp only [topFromOffset]
      ring
    rw [hcancel, min_eq_left h1, max_eq_right h0]
    simp only [topFromOffset]
    field_simp
    ring

/-- Witness for C10: raster 300 × 400, zoom 1, top-aligned crop whose view
top 0 is in range because `baseH = 400` fills the height exactly. -/
theorem nudgeFaceY_identity_witness :
    (nudgeFaceY 300 400 ⟨1, 0, 0, 38 / 100⟩ (⟨1, 0, 0, 38 / 100⟩ : CropState).faceYFrac).cropX
      = (0 : ℚ) ∧
    (nudgeFaceY 300 400 ⟨1, 0, 0, 38 / 100⟩ (⟨1, 0, 0, 38 / 100⟩ : CropState).faceYFrac).cropY
      = (0 : ℚ) :=
  nudgeFaceY_identity 300 400 ⟨1, 0, 0, 38 / 100⟩ (by norm_num) (by norm_num)
    (by norm_num [topFromOffset])
    (by norm_num [topFromOffset, baseHOf, TARGET_AR_eq, jsRound])

/-- Completions whose tag differs from the current sequence number never
change the state, in any order and multiplicity. -/
lemma estRun_stale (st : EstState) (evs : List EstEvent)
    (h : ∀ e ∈ evs, ∃ tag d, e = EstEvent.complete tag d ∧ tag ≠ st.seq) :
    estRun st evs = st := by
  induction evs with
  | nil => rfl
  | cons e evs ih =>
    obtain ⟨tag, d, rfl, htag⟩ := h _ (List.mem_cons_self _ _)
    have hstep : estStep st (EstEvent.complete tag d) = st := by
      simp only [estStep]
      rw [if_neg (fun hh => htag hh.symm)]
    show estRun (estStep st (EstEvent.complete tag d)) evs = st
    rw [hstep]
    exact ih (fun e' he' => h e' (List.mem_cons_of_mem _ he'))

/-- C8: preview-estimate supersession.  A completion is applied only when
its tag is still the current sequence number; and in the A, B, C scenario
(three invocations issued in order, tagged `seq+1`, `seq+2`, `seq+3`),
any interleaving of completions of A and B after C has been issued leaves
the state unchanged, while C's completion is applied to the displayed
output dimensions. -/
theorem estimate_supersession (st0 : EstState) (dA dB dC : EstDim)
    (stale : List EstEvent)
    (hstale : ∀ e ∈ stale,
      e = EstEvent.complete (st0.seq + 1) dA ∨ e = EstEvent.complete (st0.seq + 2) dB) :
    (∀ (tag : ℕ) (d : EstDim), tag ≠ st0.seq →
      estStep st0 (EstEvent.complete tag d) = st0) ∧
    estRun (estRun st0 [EstEvent.issue, EstEvent.issue, EstEvent.issue]) stale =
      estRun st0 [EstEvent.issue, EstEvent.issue, EstEvent.issue] ∧
    (estRun (estRun st0 [EstEvent.issue, EstEvent.issue, EstEvent.issue])
        (stale ++ [EstEvent.complete (st0.seq + 3) dC])).outW = dC.w ∧
    (estRun (estRun st0 [EstEvent.issue, EstEvent.issue, EstEvent.issue])
        (stale ++ [EstEvent.complete (st0.seq + 3) dC])).outH = dC.h := by
  have hst3 : estRun st0 [EstEvent.issue, EstEvent.issue, EstEvent.issue] =
      ⟨st0.seq + 3, st0.outW, st0.outH⟩ := by
    simp only [estRun, List.foldl_cons, List.foldl_nil, estStep, EstState.mk.injEq]
  have hdrop : estRun (estRun st0 [EstEvent.issue, EstEvent.issue, EstEvent.issue]) stale =
      estRun st0 [EstEvent.issue, EstEvent.issue, EstEvent.issue] := by
    refine estRun_stale _ _ ?_
    intro e he
    rcases hstale e he with rfl | rfl
    · exact ⟨st0.seq + 1, dA, rfl, by rw [hst3]; show st0.seq + 1 ≠ st0.seq + 3; omega⟩
    · exact ⟨st0.seq + 2, dB, rfl, by rw [hst3]; show st0.seq + 2 ≠ st0.seq + 3; omega⟩
  have happ : estRun (estRun st0 [EstEvent.issue, EstEvent.issue, EstEvent.issue])
      (stale ++ [EstEvent.complete (st0.seq + 3) dC]) =
      ⟨st0.seq + 3, dC.w, dC.h⟩ := by
    rw [estRun, List.foldl_append]
    show estRun (estRun _ stale) [EstEvent.complete (st0.seq + 3) dC] = _
    rw [hdrop, hst3]
    simp [estRun, estStep]
  refine ⟨?_, hdrop, ?_, ?_⟩
  · intro tag d htag
    simp only [estStep]
    rw [if_neg (fun hh => htag hh.symm)]
  · rw [happ]
  · rw [happ]

/-- Witness for C8: from sequence number 0, calls A, B, C are tagged 1, 2,
3; B completes before A (both after C was issued) and neither is applied;
C's completion is applied. -/
theorem estimate_supersession_witness :
    (∀ (tag : ℕ) (d : EstDim), tag ≠ (⟨0, 360, 480⟩ : EstState).seq →
      estStep ⟨0, 360, 480⟩ (EstEvent.complete tag d) = ⟨0, 360, 480⟩) ∧
    estRun (estRun ⟨0, 360, 480⟩ [EstEvent.issue, EstEvent.issue, EstEvent.issue])
        [EstEvent.complete ((⟨0, 360, 480⟩ : EstState).seq + 2) ⟨200, 267⟩,
         EstEvent.complete ((⟨0, 360, 480⟩ : EstState).seq + 1) ⟨100, 133⟩] =
      estRun ⟨0, 360, 480⟩ [EstEvent.issue, EstEvent.issue, EstEvent.issue] ∧
    (estRun (estRun ⟨0, 360, 480⟩ [EstEvent.issue, EstEvent.issue, EstEvent.issue])
        ([EstEvent.complete ((⟨0, 360, 480⟩ : EstState).seq + 2) ⟨200, 267⟩,
          EstEvent.complete ((⟨0, 360, 480⟩ : EstState).seq + 1) ⟨100, 133⟩] ++
         [EstEvent.complete ((⟨0, 360, 480⟩ : EstState).seq + 3) ⟨300, 400⟩])).outW
      = (⟨300, 400⟩ : EstDim).w ∧
    (estRun (estRun ⟨0, 360, 480⟩ [EstEvent.issue, EstEvent.issue, EstEvent.issue])
        ([EstEvent.complete ((⟨0, 360, 480⟩ : EstState).seq + 2) ⟨200, 267⟩,
          EstEvent.complete ((⟨0, 360, 480⟩ : EstState).seq + 1) ⟨100, 133⟩] ++
         [EstEvent.complete ((⟨0, 360, 480⟩ : EstState).seq + 3) ⟨300, 400⟩])).outH
      = (⟨300, 400⟩ : EstDim).h :=
  estimate_supersession ⟨0, 360, 480⟩ ⟨100, 133⟩ ⟨200, 267⟩ ⟨300, 400⟩
    [EstEvent.complete 2 ⟨200, 267⟩, EstEvent.complete 1 ⟨100, 133⟩]
    (by
      intro e he
      rcases he with _ | ⟨_, he⟩
      · right; rfl
      · rcases he with _ | ⟨_, he⟩
        · left; rfl
        · cases he)

end ImageFix
